import Mathlib

/-!
Verification of the `EmbeddingStr` short-string type (src/src/lib.rs).

The type is a two-machine-word buffer (`STR_INNER_SIZE = 2 * size_of::<usize>()`
bytes).  Short strings (length ≤ `MAX_EMBEDDED_LEN = STR_INNER_SIZE - 1`) are
stored inline; longer strings are boxed on the heap with the pointer and the
shifted length packed into the two words.

The embedding is byte-level: a value is the list of its buffer bytes (each a
`Nat < 256`), machine words are serialized into bytes per the platform
endianness exactly as the `mem::transmute` of `[usize; 2]` in Rust does, and the
heap is a partial map from addresses to byte lists.  Pointers and lengths are
`Nat`s reduced mod `2 ^ wordBits` where the `usize` arithmetic of the code wraps.
-/

namespace EmbedStr

/-- Byte order of the target platform (`cfg!(target_endian = ...)`). -/
inductive Endian
  | little
  | big
deriving DecidableEq

/-- Platform parameters: `wordBytes = size_of::<usize>()` and the byte order. -/
structure Platform where
  wordBytes : Nat
  endian : Endian

/-- `STR_INNER_SIZE`: the buffer is two machine words. -/
def Platform.strInnerSize (p : Platform) : Nat := 2 * p.wordBytes

/-- `MAX_EMBEDDED_LEN = STR_INNER_SIZE - 1`. -/
def Platform.maxEmbeddedLen (p : Platform) : Nat := p.strInnerSize - 1

/-- Number of bits in a machine word. -/
def Platform.wordBits (p : Platform) : Nat := 8 * p.wordBytes

/-- The platforms the source supports (its `cfg_attr` handles pointer widths
32 and 64, i.e. `wordBytes` 4 or 8). -/
abbrev Platform.valid (p : Platform) : Prop := p.wordBytes = 4 ∨ p.wordBytes = 8

/-- `EmbeddingStrMode` from the source. -/
inductive EmbeddingStrMode
  | Boxed
  | Embedded
deriving DecidableEq

/-- Serialize a machine word into `c` bytes, little-endian, least significant
byte first (truncating to the low `8 * c` bits, as a `usize` store does). -/
def toLEBytes : Nat → Nat → List Nat
  | 0, _ => []
  | c + 1, n => n % 256 :: toLEBytes c (n / 256)

/-- Read a machine word back from little-endian bytes. -/
def fromLEBytes : List Nat → Nat
  | [] => 0
  | b :: bs => b + 256 * fromLEBytes bs

/-- Native byte serialization of one machine word. -/
def wordToBytes (p : Platform) (n : Nat) : List Nat :=
  match p.endian with
  | .little => toLEBytes p.wordBytes n
  | .big => (toLEBytes p.wordBytes n).reverse

/-- Native deserialization of one machine word. -/
def wordFromBytes (p : Platform) (l : List Nat) : Nat :=
  match p.endian with
  | .little => fromLEBytes l
  | .big => fromLEBytes l.reverse

/-- `mem::transmute::<[usize; 2], [u8; STR_INNER_SIZE]>`: each word laid out in
native byte order, word 0 first. -/
def wordsToBuffer (p : Platform) (w : Nat × Nat) : List Nat :=
  wordToBytes p w.1 ++ wordToBytes p w.2

/-- `mem::transmute_copy` back into `[usize; 2]`: (word 0, word 1). -/
def bufferToWords (p : Platform) (buf : List Nat) : Nat × Nat :=
  (wordFromBytes p (buf.take p.wordBytes), wordFromBytes p (buf.drop p.wordBytes))

/-- `len_least_significant([len, ptr])` from the source: orders the two words
so that the least significant byte of the length word lands at the discriminant
position (word 0 on little-endian, word 1 on big-endian). -/
def len_least_significant (p : Platform) (lp : Nat × Nat) : Nat × Nat :=
  match p.endian with
  | .little => lp
  | .big => (lp.2, lp.1)

/-- The encoded discriminant byte `((s.len() as u8) << 1) | 1` of
`new_embedded`, with the `u8` cast and shift wrapping mod 256. -/
def encoded_len (len : Nat) : Nat := ((len % 256) * 2) % 256 ||| 1

/-- `EmbeddingStr::new_embedded`: discriminant byte at offset 0 (little-endian)
or offset `STR_INNER_SIZE - 1` (big-endian), text bytes next to it; the
remaining bytes are uninitialized padding, modelled as zeros (never read). -/
def new_embedded (p : Platform) (s : List Nat) : List Nat :=
  match p.endian with
  | .little =>
    encoded_len s.length :: (s ++ List.replicate (p.maxEmbeddedLen - s.length) 0)
  | .big =>
    (s ++ List.replicate (p.maxEmbeddedLen - s.length) 0) ++ [encoded_len s.length]

/-- The length word stored by `new_heap`: `len << 1` in `usize` arithmetic. -/
def encodeLenWord (p : Platform) (len : Nat) : Nat := (len <<< 1) % 2 ^ p.wordBits

/-- The length recovered by `heap_ptr`: `length_word >> 1`. -/
def decodeLenWord (w : Nat) : Nat := w >>> 1

/-- `EmbeddingStr::new_heap`: transmute `len_least_significant([len << 1, ptr])`
into the buffer.  `ptr` is the address `Box::into_raw` returned. -/
def new_heap (p : Platform) (ptr len : Nat) : List Nat :=
  wordsToBuffer p (len_least_significant p (encodeLenWord p len, ptr))

/-- `EmbeddingStr::heap_ptr`: read the two words back, undo
`len_least_significant`, and return (pointer, byte length). -/
def heap_ptr (p : Platform) (buf : List Nat) : Nat × Nat :=
  let lp := len_least_significant p (bufferToWords p buf)
  (lp.2, decodeLenWord lp.1)

/-- The byte `embedded_len` reads: offset 0 on little-endian, offset
`STR_INNER_SIZE - 1` on big-endian. -/
def discriminant_byte (p : Platform) (buf : List Nat) : Nat :=
  match p.endian with
  | .little => buf.getD 0 0
  | .big => buf.getD (p.strInnerSize - 1) 0

/-- `EmbeddingStr::embedded_len`: `None` if the low bit of the discriminant byte is
0, else `Some (byte >> 1)`. -/
def embedded_len (p : Platform) (buf : List Nat) : Option Nat :=
  let b := discriminant_byte p buf
  if b &&& 1 = 0 then none else some (b >>> 1)

/-- `EmbeddingStr::mode`. -/
def mode (p : Platform) (buf : List Nat) : EmbeddingStrMode :=
  if (embedded_len p buf).isSome then .Embedded else .Boxed

/-- The heap: a partial map from addresses to allocated byte contents. -/
abbrev Heap := Nat → Option (List Nat)

/-- The empty heap. -/
def Heap.empty : Heap := fun _ => none

/-- Allocate `data` at address `ptr`. -/
def Heap.alloc (h : Heap) (ptr : Nat) (data : List Nat) : Heap :=
  fun q => if q = ptr then some data else h q

/-- Release the allocation at address `ptr`. -/
def Heap.free (h : Heap) (ptr : Nat) : Heap :=
  fun q => if q = ptr then none else h q

/-- `EmbeddingStr::as_str`: embedded values are sliced out of the buffer
(offset 1 on little-endian, offset 0 on big-endian); boxed values are read
from the heap through the decoded pointer/length pair. -/
def as_str (p : Platform) (h : Heap) (buf : List Nat) : List Nat :=
  match embedded_len p buf with
  | none =>
    let pl := heap_ptr p buf
    ((h pl.1).getD []).take pl.2
  | some len =>
    match p.endian with
    | .little => (buf.drop 1).take len
    | .big => buf.take len

/-- `impl From<Cow<str>>`: the single dispatch — inline codec when
`len ≤ MAX_EMBEDDED_LEN`, else move the bytes into a fresh heap allocation at
`ptr` (the address the allocator returns) and use the heap codec. -/
def from_cow (p : Platform) (h : Heap) (ptr : Nat) (s : List Nat) :
    List Nat × Heap :=
  if s.length ≤ p.maxEmbeddedLen then (new_embedded p s, h)
  else (new_heap p ptr s.length, h.alloc ptr s)

/-- `impl From<String>`: delegates to the `Cow` conversion. -/
def from_string (p : Platform) (h : Heap) (ptr : Nat) (s : List Nat) :
    List Nat × Heap :=
  from_cow p h ptr s

/-- `impl From<&str>`: delegates to the `Cow` conversion. -/
def from_str_ref (p : Platform) (h : Heap) (ptr : Nat) (s : List Nat) :
    List Nat × Heap :=
  from_cow p h ptr s

/-- `impl From<Box<str>>`: its own copy of the same length dispatch. -/
def from_box_str (p : Platform) (h : Heap) (ptr : Nat) (s : List Nat) :
    List Nat × Heap :=
  if s.length ≤ p.maxEmbeddedLen then (new_embedded p s, h)
  else (new_heap p ptr s.length, h.alloc ptr s)

/-- `new_embedded` guarded by its `debug_assert!(s.len() <= MAX_EMBEDDED_LEN)`:
`none` models the assertion firing. -/
def new_embedded_checked (p : Platform) (s : List Nat) : Option (List Nat) :=
  if s.length ≤ p.maxEmbeddedLen then some (new_embedded p s) else none

/-- The `Cow` conversion routed through the checked inline codec. -/
def from_cow_checked (p : Platform) (h : Heap) (ptr : Nat) (s : List Nat) :
    Option (List Nat × Heap) :=
  if s.length ≤ p.maxEmbeddedLen then
    (new_embedded_checked p s).map (fun b => (b, h))
  else some (new_heap p ptr s.length, h.alloc ptr s)

/-- The `Box<str>` conversion routed through the checked inline codec. -/
def from_box_str_checked (p : Platform) (h : Heap) (ptr : Nat) (s : List Nat) :
    Option (List Nat × Heap) :=
  if s.length ≤ p.maxEmbeddedLen then
    (new_embedded_checked p s).map (fun b => (b, h))
  else some (new_heap p ptr s.length, h.alloc ptr s)

/-- `impl Drop`: boxed values rebuild the `Box` from the decoded pointer and
release it; embedded values do nothing. -/
def drop (p : Platform) (h : Heap) (buf : List Nat) : Heap :=
  match mode p buf with
  | .Boxed => h.free (heap_ptr p buf).1
  | .Embedded => h

/-- The `#[derive(Debug)]` name of each mode variant, as ASCII bytes
("Boxed" / "Embedded"). -/
def mode_name : EmbeddingStrMode → List Nat
  | .Boxed => [66, 111, 120, 101, 100]
  | .Embedded => [69, 109, 98, 101, 100, 100, 101, 100]

/-- Modelled from the spec: the std `str` `Debug` formatting (the "debug-quoted
form" of §4.7), which is not part of this repository — the text surrounded by
double quotes with quote and backslash bytes escaped. -/
def debug_quote (s : List Nat) : List Nat :=
  34 :: (s.flatMap (fun b => if b = 34 ∨ b = 92 then [92, b] else [b])) ++ [34]

/-- `impl Display`: `Display::fmt(self.as_str(), f)` — the text verbatim. -/
def fmt_display (p : Platform) (h : Heap) (buf : List Nat) : List Nat :=
  as_str p h buf

/-- `impl Debug`: `write!(f, "{:?}({:?})", self.mode(), self.as_str())` —
the variant name of the mode, then the debug-quoted text in parentheses
(40 and 41 are the parenthesis bytes). -/
def fmt_debug (p : Platform) (h : Heap) (buf : List Nat) : List Nat :=
  mode_name (mode p buf) ++ [40] ++ debug_quote (as_str p h buf) ++ [41]

/-- Construct a value from each text in turn via the public `Cow` conversion,
destroy it, and count (allocations performed, reclaims performed).  Each list
entry pairs the text with the address a heap allocation would use. -/
def run_lifecycle (p : Platform) : List (List Nat × Nat) → Heap → Heap × Nat × Nat
  | [], h => (h, 0, 0)
  | e :: rest, h =>
    let c := from_cow p h e.2 e.1
    let allocated := if e.1.length ≤ p.maxEmbeddedLen then 0 else 1
    let freed := if mode p c.1 = EmbeddingStrMode.Boxed then 1 else 0
    let r := run_lifecycle p rest (drop p c.2 c.1)
    (r.1, allocated + r.2.1, freed + r.2.2)

/-- The 64-bit little-endian platform (the configuration of the tests in the
source, where `STR_INNER_SIZE = 16`). -/
def p64 : Platform := ⟨8, Endian.little⟩

/-- The 64-bit big-endian platform. -/
def p64be : Platform := ⟨8, Endian.big⟩

/-- The ASCII bytes of the 16-byte test string "1234567890123456". -/
def s16bytes : List Nat := [49, 50, 51, 52, 53, 54, 55, 56, 57, 48, 49, 50, 51, 52, 53, 54]

/-! Helper lemmas about the platform parameters and byte serialization. -/

theorem Platform.wordBytes_pos {p : Platform} (hv : p.valid) : 0 < p.wordBytes := by
  rcases hv with h | h <;> omega

theorem Platform.maxEmbeddedLen_le {p : Platform} (hv : p.valid) : p.maxEmbeddedLen ≤ 15 := by
  unfold Platform.maxEmbeddedLen Platform.strInnerSize
  rcases hv with h | h <;> omega

theorem Platform.eight_le_wordBits {p : Platform} (hv : p.valid) : 8 ≤ p.wordBits := by
  unfold Platform.wordBits
  rcases hv with h | h <;> omega

theorem toLEBytes_length (c n : Nat) : (toLEBytes c n).length = c := by
  induction c generalizing n with
  | zero => rfl
  | succ c ih => simp [toLEBytes, ih]

theorem fromLEBytes_toLEBytes (c n : Nat) :
    fromLEBytes (toLEBytes c n) = n % 256 ^ c := by
  induction c generalizing n with
  | zero => simp [toLEBytes, fromLEBytes, Nat.mod_one]
  | succ c ih =>
    simp only [toLEBytes, fromLEBytes, ih]
    rw [pow_succ', Nat.mod_mul]

theorem wordToBytes_length (p : Platform) (n : Nat) : (wordToBytes p n).length = p.wordBytes := by
  cases he : p.endian <;> simp [wordToBytes, he, toLEBytes_length]

theorem wordFromBytes_wordToBytes (p : Platform) (n : Nat) :
    wordFromBytes p (wordToBytes p n) = n % 2 ^ p.wordBits := by
  have h256 : (256 : Nat) ^ p.wordBytes = 2 ^ p.wordBits := by
    rw [Platform.wordBits, pow_mul]
    norm_num
  cases he : p.endian <;>
    simp [wordToBytes, wordFromBytes, he, List.reverse_reverse, fromLEBytes_toLEBytes, h256]

theorem bufferToWords_wordsToBuffer (p : Platform) (w : Nat × Nat) :
    bufferToWords p (wordsToBuffer p w) = (w.1 % 2 ^ p.wordBits, w.2 % 2 ^ p.wordBits) := by
  unfold bufferToWords wordsToBuffer
  rw [List.take_left' (wordToBytes_length p w.1), List.drop_left' (wordToBytes_length p w.1),
    wordFromBytes_wordToBytes, wordFromBytes_wordToBytes]

theorem encoded_len_eq (len : Nat) (h : len ≤ 127) : encoded_len len = 2 * len + 1 := by
  have hb : ∀ l, l < 128 → encoded_len l = 2 * l + 1 := by decide
  exact hb len (by omega)

theorem shift_or_one (len : Nat) (h : len ≤ 127) : (len <<< 1) ||| 1 = 2 * len + 1 := by
  have hb : ∀ l, l < 128 → (l <<< 1) ||| 1 = 2 * l + 1 := by decide
  exact hb len (by omega)

theorem shiftLeft_one_lt (p : Platform) (hv : p.valid) {len : Nat}
    (hl : len < 2 ^ (p.wordBits - 1)) : len <<< 1 < 2 ^ p.wordBits := by
  rw [Nat.shiftLeft_eq, pow_one]
  have hbits := Platform.eight_le_wordBits hv
  have h2 : 2 ^ p.wordBits = 2 * 2 ^ (p.wordBits - 1) := by
    rw [← pow_succ']
    congr 1
    omega
  omega

/-! Helper lemmas about the two codec paths. -/

theorem discriminant_byte_new_embedded (p : Platform) (s : List Nat)
    (hs : s.length ≤ p.maxEmbeddedLen) :
    discriminant_byte p (new_embedded p s) = encoded_len s.length := by
  cases he : p.endian with
  | little => simp [discriminant_byte, new_embedded, he]
  | big =>
    have hlen : (s ++ List.replicate (p.maxEmbeddedLen - s.length) 0).length
        = p.maxEmbeddedLen := by
      simp
      omega
    simp only [discriminant_byte, new_embedded, he]
    rw [List.getD_append_right _ _ _ _ (by rw [hlen]; unfold Platform.maxEmbeddedLen; omega)]
    rw [hlen]
    have hidx : p.strInnerSize - 1 - p.maxEmbeddedLen = 0 := by
      unfold Platform.maxEmbeddedLen
      omega
    rw [hidx]
    rfl

theorem discriminant_byte_new_heap (p : Platform) (hwb : 0 < p.wordBytes) (ptr len : Nat) :
    discriminant_byte p (new_heap p ptr len) = encodeLenWord p len % 256 := by
  obtain ⟨c, hc⟩ : ∃ c, p.wordBytes = c + 1 := ⟨p.wordBytes - 1, by omega⟩
  cases he : p.endian with
  | little =>
    simp only [discriminant_byte, new_heap, wordsToBuffer, len_least_significant, he,
      wordToBytes, hc]
    simp [toLEBytes]
  | big =>
    have h1 : (toLEBytes p.wordBytes ptr).reverse.length = p.wordBytes := by
      simp [toLEBytes_length]
    simp only [discriminant_byte, new_heap, wordsToBuffer, len_least_significant, he,
      wordToBytes]
    rw [List.getD_append_right _ _ _ _ (by rw [h1]; unfold Platform.strInnerSize; omega)]
    rw [h1]
    have hidx : p.strInnerSize - 1 - p.wordBytes = c := by
      unfold Platform.strInnerSize
      omega
    rw [hidx, hc]
    simp only [toLEBytes, List.reverse_cons]
    rw [List.getD_append_right _ _ _ _ (by simp [toLEBytes_length])]
    simp [toLEBytes_length]

theorem encodeLenWord_mod_two (p : Platform) (hv : p.valid) (len : Nat) :
    encodeLenWord p len % 256 % 2 = 0 := by
  unfold encodeLenWord
  rw [Nat.mod_mod_of_dvd _ (by norm_num : (2 : Nat) ∣ 256)]
  rw [Nat.mod_mod_of_dvd _ (dvd_pow_self 2
    (by have := Platform.eight_le_wordBits hv; omega))]
  rw [Nat.shiftLeft_eq, pow_one]
  omega

theorem embedded_len_new_embedded (p : Platform) {s : List Nat} (hv : p.valid)
    (hs : s.length ≤ p.maxEmbeddedLen) :
    embedded_len p (new_embedded p s) = some s.length := by
  have hb := discriminant_byte_new_embedded p s hs
  have h15 : s.length ≤ 15 := le_trans hs (Platform.maxEmbeddedLen_le hv)
  unfold embedded_len
  rw [hb, encoded_len_eq _ (by omega)]
  simp only [Nat.and_one_is_mod]
  rw [if_neg (by omega), Nat.shiftRight_eq_div_pow, pow_one]
  simp only [Option.some.injEq]
  omega

theorem embedded_len_new_heap (p : Platform) (hv : p.valid) (ptr len : Nat) :
    embedded_len p (new_heap p ptr len) = none := by
  have hb := discriminant_byte_new_heap p (Platform.wordBytes_pos hv) ptr len
  have h2 := encodeLenWord_mod_two p hv len
  unfold embedded_len
  rw [hb]
  simp only [Nat.and_one_is_mod]
  rw [if_pos h2]

theorem mode_new_embedded (p : Platform) {s : List Nat} (hv : p.valid)
    (hs : s.length ≤ p.maxEmbeddedLen) :
    mode p (new_embedded p s) = EmbeddingStrMode.Embedded := by
  unfold mode
  rw [embedded_len_new_embedded p hv hs]
  rfl

theorem mode_new_heap (p : Platform) (hv : p.valid) (ptr len : Nat) :
    mode p (new_heap p ptr len) = EmbeddingStrMode.Boxed := by
  unfold mode
  rw [embedded_len_new_heap p hv ptr len]
  rfl

theorem heap_ptr_new_heap_raw (p : Platform) (ptr len : Nat) :
    heap_ptr p (new_heap p ptr len) =
      (ptr % 2 ^ p.wordBits, decodeLenWord (encodeLenWord p len % 2 ^ p.wordBits)) := by
  unfold heap_ptr new_heap
  rw [bufferToWords_wordsToBuffer]
  cases he : p.endian <;> simp [len_least_significant, he]

theorem heap_ptr_new_heap (p : Platform) (hv : p.valid) (ptr len : Nat)
    (hp : ptr < 2 ^ p.wordBits) (hl : len < 2 ^ (p.wordBits - 1)) :
    heap_ptr p (new_heap p ptr len) = (ptr, len) := by
  rw [heap_ptr_new_heap_raw]
  have h2l := shiftLeft_one_lt p hv hl
  have henc : encodeLenWord p len = len <<< 1 := by
    unfold encodeLenWord
    exact Nat.mod_eq_of_lt h2l
  rw [henc, Nat.mod_eq_of_lt h2l, Nat.mod_eq_of_lt hp]
  unfold decodeLenWord
  rw [Nat.shiftLeft_eq, pow_one, Nat.shiftRight_eq_div_pow, pow_one]
  simp only [Prod.mk.injEq]
  exact ⟨trivial, by omega⟩

theorem as_str_new_embedded (p : Platform) (h : Heap) {s : List Nat} (hv : p.valid)
    (hs : s.length ≤ p.maxEmbeddedLen) :
    as_str p h (new_embedded p s) = s := by
  unfold as_str
  rw [embedded_len_new_embedded p hv hs]
  cases he : p.endian with
  | little =>
    simp only [new_embedded, he, List.drop_succ_cons, List.drop_zero]
    exact List.take_left s _
  | big =>
    simp only [new_embedded, he, List.append_assoc]
    exact List.take_left s _

theorem as_str_new_heap (p : Platform) (h : Heap) (ptr len : Nat) (hv : p.valid)
    (hp : ptr < 2 ^ p.wordBits) (hl : len < 2 ^ (p.wordBits - 1)) :
    as_str p h (new_heap p ptr len) = ((h ptr).getD []).take len := by
  unfold as_str
  rw [embedded_len_new_heap p hv ptr len, heap_ptr_new_heap p hv ptr len hp hl]

theorem Heap.free_alloc (h : Heap) (ptr : Nat) (s : List Nat) (hfresh : h ptr = none) :
    (h.alloc ptr s).free ptr = h := by
  funext q
  unfold Heap.free Heap.alloc
  by_cases hq : q = ptr
  · rw [if_pos hq, hq, hfresh]
  · rw [if_neg hq, if_neg hq]

theorem mode_from_cow (p : Platform) (h : Heap) (ptr : Nat) (s : List Nat) (hv : p.valid) :
    mode p (from_cow p h ptr s).1 =
      if s.length ≤ p.maxEmbeddedLen then EmbeddingStrMode.Embedded
      else EmbeddingStrMode.Boxed := by
  unfold from_cow
  by_cases hc : s.length ≤ p.maxEmbeddedLen
  · rw [if_pos hc, if_pos hc]
    exact mode_new_embedded p hv hc
  · rw [if_neg hc, if_neg hc]
    exact mode_new_heap p hv ptr s.length

theorem as_str_dispatch (p : Platform) (h : Heap) (ptr : Nat) (s : List Nat)
    (hv : p.valid) (hp : ptr < 2 ^ p.wordBits) (hl : s.length < 2 ^ (p.wordBits - 1)) :
    as_str p (from_cow p h ptr s).2 (from_cow p h ptr s).1 = s := by
  unfold from_cow
  by_cases hc : s.length ≤ p.maxEmbeddedLen
  · rw [if_pos hc]
    exact as_str_new_embedded p h hv hc
  · rw [if_neg hc]
    show as_str p (h.alloc ptr s) (new_heap p ptr s.length) = s
    rw [as_str_new_heap p (h.alloc ptr s) ptr s.length hv hp hl]
    unfold Heap.alloc
    simp [List.take_length]

/-! The claims. -/

/-- C1: for every text `s` (any byte length a Rust slice admits, i.e. below
`2 ^ (wordBits - 1)`), constructing an `EmbeddingStr` from `s` via the public
conversions and reading it back with `as_str` returns exactly the bytes of
`s`, on both the inline (Embedded) and heap (Boxed) codec paths. -/
theorem c1_round_trip (p : Platform) (h : Heap) (ptr : Nat) (s : List Nat)
    (hv : p.valid) (hp : ptr < 2 ^ p.wordBits) (hl : s.length < 2 ^ (p.wordBits - 1)) :
    as_str p (from_cow p h ptr s).2 (from_cow p h ptr s).1 = s ∧
    as_str p (from_box_str p h ptr s).2 (from_box_str p h ptr s).1 = s :=
  ⟨as_str_dispatch p h ptr s hv hp hl, as_str_dispatch p h ptr s hv hp hl⟩

/-- Witness for C1 at the 16-byte test string on the 64-bit little-endian
platform (the Boxed path; the hypotheses are discharged concretely). -/
theorem c1_round_trip_witness :
    (Platform.valid p64 ∧ 4096 < 2 ^ p64.wordBits ∧
      s16bytes.length < 2 ^ (p64.wordBits - 1)) ∧
    (as_str p64 (from_cow p64 Heap.empty 4096 s16bytes).2
        (from_cow p64 Heap.empty 4096 s16bytes).1 = s16bytes ∧
      as_str p64 (from_box_str p64 Heap.empty 4096 s16bytes).2
        (from_box_str p64 Heap.empty 4096 s16bytes).1 = s16bytes) :=
  ⟨⟨by decide, by decide, by decide⟩,
    c1_round_trip p64 Heap.empty 4096 s16bytes (by decide) (by decide) (by decide)⟩

/-- C2: a value constructed from `s` has mode Embedded exactly when
`len(s) ≤ maxEmbeddedLen = W - 1`, and mode Boxed exactly when
`len(s) > W - 1`; the iff form makes the rule exact at every boundary. -/
theorem c2_mode_threshold (p : Platform) (h : Heap) (ptr : Nat) (s : List Nat)
    (hv : p.valid) :
    (mode p (from_cow p h ptr s).1 = EmbeddingStrMode.Embedded ↔
      s.length ≤ p.maxEmbeddedLen) ∧
    (mode p (from_cow p h ptr s).1 = EmbeddingStrMode.Boxed ↔
      p.maxEmbeddedLen < s.length) := by
  rw [mode_from_cow p h ptr s hv]
  by_cases hc : s.length ≤ p.maxEmbeddedLen
  · rw [if_pos hc]
    exact ⟨⟨fun _ => hc, fun _ => rfl⟩,
      ⟨fun hEq => absurd hEq (by decide), fun hlt => absurd hc (by omega)⟩⟩
  · rw [if_neg hc]
    exact ⟨⟨fun hEq => absurd hEq (by decide), fun hle => absurd hle hc⟩,
      ⟨fun _ => by omega, fun _ => rfl⟩⟩

/-- Witness for C2 at the boundary lengths 15 (Embedded) and 16 (Boxed) on the
64-bit platform, where `maxEmbeddedLen = 15`. -/
theorem c2_mode_threshold_witness :
    Platform.valid p64 ∧
    (mode p64 (from_cow p64 Heap.empty 4096 (List.replicate 15 97)).1 =
        EmbeddingStrMode.Embedded ↔
      (List.replicate 15 97).length ≤ p64.maxEmbeddedLen) ∧
    (mode p64 (from_cow p64 Heap.empty 4096 s16bytes).1 = EmbeddingStrMode.Boxed ↔
      p64.maxEmbeddedLen < s16bytes.length) :=
  ⟨by decide,
    (c2_mode_threshold p64 Heap.empty 4096 (List.replicate 15 97) (by decide)).1,
    (c2_mode_threshold p64 Heap.empty 4096 s16bytes (by decide)).2⟩

/-- C3: for every constructed value, the byte at the platform discriminant
position has least-significant bit 1 exactly when the value is Embedded; when
it is 1 the byte equals `(len << 1) | 1` and `embedded_len` recovers
`L = byte >> 1 = len`; when it is 0 the value is Boxed (Indirect). -/
theorem c3_discriminant_invariant (p : Platform) (h : Heap) (ptr : Nat) (s : List Nat)
    (hv : p.valid) :
    (discriminant_byte p (from_cow p h ptr s).1 &&& 1 = 1 ↔
      mode p (from_cow p h ptr s).1 = EmbeddingStrMode.Embedded) ∧
    (mode p (from_cow p h ptr s).1 = EmbeddingStrMode.Embedded →
      discriminant_byte p (from_cow p h ptr s).1 = (s.length <<< 1) ||| 1 ∧
      embedded_len p (from_cow p h ptr s).1 = some s.length) ∧
    (discriminant_byte p (from_cow p h ptr s).1 &&& 1 = 0 ↔
      mode p (from_cow p h ptr s).1 = EmbeddingStrMode.Boxed) := by
  unfold from_cow
  by_cases hc : s.length ≤ p.maxEmbeddedLen
  · rw [if_pos hc]
    show (discriminant_byte p (new_embedded p s) &&& 1 = 1 ↔
        mode p (new_embedded p s) = EmbeddingStrMode.Embedded) ∧ _ ∧ _
    have h15 : s.length ≤ 15 := le_trans hc (Platform.maxEmbeddedLen_le hv)
    rw [discriminant_byte_new_embedded p s hc, encoded_len_eq _ (by omega),
      mode_new_embedded p hv hc]
    refine ⟨⟨fun _ => rfl, fun _ => by rw [Nat.and_one_is_mod]; omega⟩, ?_, ?_⟩
    · intro _
      exact ⟨by rw [shift_or_one _ (by omega)], embedded_len_new_embedded p hv hc⟩
    · constructor
      · intro habs
        rw [Nat.and_one_is_mod] at habs
        omega
      · intro habs
        exact absurd habs (by decide)
  · rw [if_neg hc]
    show (discriminant_byte p (new_heap p ptr s.length) &&& 1 = 1 ↔
        mode p (new_heap p ptr s.length) = EmbeddingStrMode.Embedded) ∧ _ ∧ _
    have h2 := encodeLenWord_mod_two p hv s.length
    rw [discriminant_byte_new_heap p (Platform.wordBytes_pos hv) ptr s.length,
      mode_new_heap p hv ptr s.length]
    refine ⟨?_, ?_, ?_⟩
    · constructor
      · intro h1
        rw [Nat.and_one_is_mod] at h1
        omega
      · intro habs
        exact absurd habs (by decide)
    · intro habs
      exact absurd habs (by decide)
    · exact ⟨fun _ => rfl, fun _ => by rw [Nat.and_one_is_mod]; omega⟩

/-- Witness for C3 at the one-byte text "a" on the 64-bit platform. -/
theorem c3_discriminant_invariant_witness :
    Platform.valid p64 ∧
    (discriminant_byte p64 (from_cow p64 Heap.empty 4096 [97]).1 &&& 1 = 1 ↔
      mode p64 (from_cow p64 Heap.empty 4096 [97]).1 = EmbeddingStrMode.Embedded) ∧
    (mode p64 (from_cow p64 Heap.empty 4096 [97]).1 = EmbeddingStrMode.Embedded →
      discriminant_byte p64 (from_cow p64 Heap.empty 4096 [97]).1 =
        (([97] : List Nat).length <<< 1) ||| 1 ∧
      embedded_len p64 (from_cow p64 Heap.empty 4096 [97]).1 =
        some ([97] : List Nat).length) :=
  ⟨by decide,
    (c3_discriminant_invariant p64 Heap.empty 4096 [97] (by decide)).1,
    (c3_discriminant_invariant p64 Heap.empty 4096 [97] (by decide)).2.1⟩

/-- C4 counterexample: on the little-endian 64-bit platform, for the Boxed
value with pointer 4096 and length 16, word 0 of the buffer is `len << 1`
(= 32), not the pointer as the claim states — the spec table has the two
words swapped. -/
theorem c4_word_order_counterexample :
    p64.endian = Endian.little ∧
    bufferToWords p64 (new_heap p64 4096 16) = (16 <<< 1, 4096) ∧
    ¬ (bufferToWords p64 (new_heap p64 4096 16)).1 = 4096 := by decide

/-- C4 (amended): for every Boxed value, on a little-endian platform word 0
holds `len << 1` and word 1 holds the pointer; on a big-endian platform word 0
holds the pointer and word 1 holds `len << 1`. -/
theorem c4_word_order (p : Platform) (ptr len : Nat) (hv : p.valid)
    (hp : ptr < 2 ^ p.wordBits) (hl : len < 2 ^ (p.wordBits - 1)) :
    bufferToWords p (new_heap p ptr len) =
      if p.endian = Endian.little then (len <<< 1, ptr) else (ptr, len <<< 1) := by
  unfold new_heap
  rw [bufferToWords_wordsToBuffer]
  have h2l := shiftLeft_one_lt p hv hl
  have henc : encodeLenWord p len = len <<< 1 := by
    unfold encodeLenWord
    exact Nat.mod_eq_of_lt h2l
  cases he : p.endian <;>
    simp [len_least_significant, he, henc, Nat.mod_eq_of_lt hp, Nat.mod_eq_of_lt h2l]

/-- Witness for C4 (amended) on the big-endian 64-bit platform with pointer
4096 and length 16. -/
theorem c4_word_order_witness :
    (Platform.valid p64be ∧ 4096 < 2 ^ p64be.wordBits ∧ 16 < 2 ^ (p64be.wordBits - 1)) ∧
    bufferToWords p64be (new_heap p64be 4096 16) =
      (if p64be.endian = Endian.little then (16 <<< 1, 4096) else (4096, 16 <<< 1)) :=
  ⟨⟨by decide, by decide, by decide⟩,
    c4_word_order p64be 4096 16 (by decide) (by decide) (by decide)⟩

/-- C5: encoding a heap buffer (pointer, byte length) with the heap codec and
decoding it back with `heap_ptr` yields exactly the original pointer and the
original length (recovered as `length_word >> 1`), for every pointer that fits
a machine word and every length a Rust slice admits. -/
theorem c5_heap_codec_round_trip (p : Platform) (ptr len : Nat) (hv : p.valid)
    (hp : ptr < 2 ^ p.wordBits) (hl : len < 2 ^ (p.wordBits - 1)) :
    heap_ptr p (new_heap p ptr len) = (ptr, len) :=
  heap_ptr_new_heap p hv ptr len hp hl

/-- Witness for C5 with pointer 4096 and length 16 on the 64-bit little-endian
platform. -/
theorem c5_heap_codec_round_trip_witness :
    (Platform.valid p64 ∧ 4096 < 2 ^ p64.wordBits ∧ 16 < 2 ^ (p64.wordBits - 1)) ∧
    heap_ptr p64 (new_heap p64 4096 16) = (4096, 16) :=
  ⟨⟨by decide, by decide, by decide⟩,
    c5_heap_codec_round_trip p64 4096 16 (by decide) (by decide) (by decide)⟩

/-- C6: the precondition of the inline codec (the `debug_assert` in
`new_embedded`, modelled by `new_embedded_checked` returning `none` when it
fires) is unreachable through the public construction policy: both public
dispatchers always return a value, for every text, because inputs longer than
`maxEmbeddedLen` are routed to the heap codec. -/
theorem c6_no_runtime_error (p : Platform) (h : Heap) (ptr : Nat) (s : List Nat) :
    from_cow_checked p h ptr s = some (from_cow p h ptr s) ∧
    from_box_str_checked p h ptr s = some (from_box_str p h ptr s) := by
  unfold from_cow_checked from_cow from_box_str_checked from_box_str new_embedded_checked
  by_cases hc : s.length ≤ p.maxEmbeddedLen <;> simp [hc]

/-- C7: Display formatting emits exactly the original text, and Debug
formatting emits the mode name ("Embedded" or "Boxed" per the threshold)
followed by the debug-quoted text in parentheses. -/
theorem c7_formatting (p : Platform) (h : Heap) (ptr : Nat) (s : List Nat)
    (hv : p.valid) (hp : ptr < 2 ^ p.wordBits) (hl : s.length < 2 ^ (p.wordBits - 1)) :
    fmt_display p (from_cow p h ptr s).2 (from_cow p h ptr s).1 = s ∧
    fmt_debug p (from_cow p h ptr s).2 (from_cow p h ptr s).1 =
      (if s.length ≤ p.maxEmbeddedLen then mode_name EmbeddingStrMode.Embedded
        else mode_name EmbeddingStrMode.Boxed) ++ [40] ++ debug_quote s ++ [41] := by
  have hstr := as_str_dispatch p h ptr s hv hp hl
  constructor
  · exact hstr
  · unfold fmt_debug
    rw [hstr, mode_from_cow p h ptr s hv]
    by_cases hc : s.length ≤ p.maxEmbeddedLen <;> simp [hc]

/-- Witness for C7 at the one-byte text "a" (Embedded: Debug is
`Embedded("a")`) on the 64-bit platform. -/
theorem c7_formatting_witness :
    (Platform.valid p64 ∧ 4096 < 2 ^ p64.wordBits ∧
      ([97] : List Nat).length < 2 ^ (p64.wordBits - 1)) ∧
    (fmt_display p64 (from_cow p64 Heap.empty 4096 [97]).2
        (from_cow p64 Heap.empty 4096 [97]).1 = [97] ∧
      fmt_debug p64 (from_cow p64 Heap.empty 4096 [97]).2
          (from_cow p64 Heap.empty 4096 [97]).1 =
        (if ([97] : List Nat).length ≤ p64.maxEmbeddedLen then
            mode_name EmbeddingStrMode.Embedded
          else mode_name EmbeddingStrMode.Boxed) ++ [40] ++ debug_quote [97] ++ [41]) :=
  ⟨⟨by decide, by decide, by decide⟩,
    c7_formatting p64 Heap.empty 4096 [97] (by decide) (by decide) (by decide)⟩

/-- C9: all four public construction entry points implement the one
length-threshold policy: from the same bytes, the `String`, `&str`, `Cow` and
`Box<str>` conversions produce values with identical mode and identical
`as_str` content (even when the heap path allocates at different addresses). -/
theorem c9_entry_points_agree (p : Platform) (h : Heap) (ptr ptr2 : Nat) (s : List Nat)
    (hv : p.valid) (hp : ptr < 2 ^ p.wordBits) (hp2 : ptr2 < 2 ^ p.wordBits)
    (hl : s.length < 2 ^ (p.wordBits - 1)) :
    mode p (from_string p h ptr s).1 = mode p (from_cow p h ptr s).1 ∧
    mode p (from_str_ref p h ptr s).1 = mode p (from_cow p h ptr s).1 ∧
    mode p (from_box_str p h ptr2 s).1 = mode p (from_cow p h ptr s).1 ∧
    as_str p (from_string p h ptr s).2 (from_string p h ptr s).1 =
      as_str p (from_cow p h ptr s).2 (from_cow p h ptr s).1 ∧
    as_str p (from_str_ref p h ptr s).2 (from_str_ref p h ptr s).1 =
      as_str p (from_cow p h ptr s).2 (from_cow p h ptr s).1 ∧
    as_str p (from_box_str p h ptr2 s).2 (from_box_str p h ptr2 s).1 =
      as_str p (from_cow p h ptr s).2 (from_cow p h ptr s).1 :=
  ⟨rfl, rfl,
    (mode_from_cow p h ptr2 s hv).trans (mode_from_cow p h ptr s hv).symm,
    rfl, rfl,
    (as_str_dispatch p h ptr2 s hv hp2 hl).trans (as_str_dispatch p h ptr s hv hp hl).symm⟩

/-- Witness for C9 at the 16-byte test string with two different heap
addresses. -/
theorem c9_entry_points_agree_witness :
    (Platform.valid p64 ∧ 4096 < 2 ^ p64.wordBits ∧ 8192 < 2 ^ p64.wordBits ∧
      s16bytes.length < 2 ^ (p64.wordBits - 1)) ∧
    (mode p64 (from_box_str p64 Heap.empty 8192 s16bytes).1 =
        mode p64 (from_cow p64 Heap.empty 4096 s16bytes).1 ∧
      as_str p64 (from_box_str p64 Heap.empty 8192 s16bytes).2
          (from_box_str p64 Heap.empty 8192 s16bytes).1 =
        as_str p64 (from_cow p64 Heap.empty 4096 s16bytes).2
          (from_cow p64 Heap.empty 4096 s16bytes).1) :=
  ⟨⟨by decide, by decide, by decide, by decide⟩,
    (c9_entry_points_agree p64 Heap.empty 4096 8192 s16bytes (by decide) (by decide)
        (by decide) (by decide)).2.2.1,
    (c9_entry_points_agree p64 Heap.empty 4096 8192 s16bytes (by decide) (by decide)
        (by decide) (by decide)).2.2.2.2.2⟩

/-- C8: constructing and destroying a sequence of values (each heap allocation
at a fresh address) returns the heap to its initial state, performing exactly
one allocation and exactly one matching reclaim per Boxed-mode value and none
for Embedded-mode values: both counters equal the number of
over-the-threshold texts. -/
theorem c8_lifecycle (p : Platform) (h : Heap) (l : List (List Nat × Nat)) (hv : p.valid)
    (hfresh : ∀ e ∈ l, e.2 < 2 ^ p.wordBits ∧ h e.2 = none) :
    run_lifecycle p l h =
      (h, (l.filter (fun e => p.maxEmbeddedLen < e.1.length)).length,
          (l.filter (fun e => p.maxEmbeddedLen < e.1.length)).length) := by
  induction l with
  | nil => rfl
  | cons e rest ih =>
    obtain ⟨hp, hfr⟩ := hfresh e (List.mem_cons_self e rest)
    have hrest := fun x hx => hfresh x (List.mem_cons_of_mem e hx)
    by_cases hc : e.1.length ≤ p.maxEmbeddedLen
    · have hfc : from_cow p h e.2 e.1 = (new_embedded p e.1, h) := by
        unfold from_cow
        rw [if_pos hc]
      have hmode : mode p (new_embedded p e.1) = EmbeddingStrMode.Embedded :=
        mode_new_embedded p hv hc
      have hdrop : drop p h (new_embedded p e.1) = h := by
        unfold drop
        rw [hmode]
      have hnot : ¬ p.maxEmbeddedLen < e.1.length := by omega
      simp only [run_lifecycle, hfc, hmode, hdrop, ih hrest, List.filter_cons]
      simp [hc, hnot]
    · have hfc : from_cow p h e.2 e.1 = (new_heap p e.2 e.1.length, h.alloc e.2 e.1) := by
        unfold from_cow
        rw [if_neg hc]
      have hmode := mode_new_heap p hv e.2 e.1.length
      have hdrop : drop p (h.alloc e.2 e.1) (new_heap p e.2 e.1.length) = h := by
        unfold drop
        rw [hmode]
        show (Heap.alloc h e.2 e.1).free (heap_ptr p (new_heap p e.2 e.1.length)).1 = h
        rw [heap_ptr_new_heap_raw]
        show (Heap.alloc h e.2 e.1).free (e.2 % 2 ^ p.wordBits) = h
        rw [Nat.mod_eq_of_lt hp]
        exact Heap.free_alloc h e.2 e.1 hfr
      have hlt : p.maxEmbeddedLen < e.1.length := by omega
      simp only [run_lifecycle, hfc, hmode, hdrop, ih hrest, List.filter_cons]
      simp [hc, hlt, Nat.add_comm]

/-- Witness for C8: one Embedded text and one Boxed text on the 64-bit
platform; exactly one allocation and one reclaim happen and the heap ends
empty. -/
theorem c8_lifecycle_witness :
    (Platform.valid p64 ∧
      (∀ e ∈ [(([97] : List Nat), (100 : Nat)), (s16bytes, 200)],
        e.2 < 2 ^ p64.wordBits ∧ Heap.empty e.2 = none)) ∧
    run_lifecycle p64 [(([97] : List Nat), (100 : Nat)), (s16bytes, 200)] Heap.empty =
      (Heap.empty, 1, 1) := by
  refine ⟨⟨by decide, by decide⟩, ?_⟩
  have hres := c8_lifecycle p64 Heap.empty
    [(([97] : List Nat), (100 : Nat)), (s16bytes, 200)] (by decide) (by decide)
  exact hres.trans (by rfl)

/-- C10: for every length with the top machine-word bit clear (the Rust slice
bound `len ≤ isize::MAX`), the stored length word `len << 1` wraps nothing in
word arithmetic, keeps its low (discriminant) bit 0, and shifts back to
exactly `len`. -/
theorem c10_len_shift_lossless (p : Platform) (len : Nat) (hv : p.valid)
    (hl : len < 2 ^ (p.wordBits - 1)) :
    encodeLenWord p len = len <<< 1 ∧
    encodeLenWord p len % 2 = 0 ∧
    decodeLenWord (encodeLenWord p len) = len := by
  have h2l := shiftLeft_one_lt p hv hl
  have he : encodeLenWord p len = len <<< 1 := by
    unfold encodeLenWord
    exact Nat.mod_eq_of_lt h2l
  refine ⟨he, ?_, ?_⟩
  · rw [he, Nat.shiftLeft_eq, pow_one]
    omega
  · rw [he]
    unfold decodeLenWord
    rw [Nat.shiftLeft_eq, pow_one, Nat.shiftRight_eq_div_pow, pow_one]
    omega

/-- Witness for C10 at length 1000 on the 64-bit platform. -/
theorem c10_len_shift_lossless_witness :
    (Platform.valid p64 ∧ 1000 < 2 ^ (p64.wordBits - 1)) ∧
    (encodeLenWord p64 1000 = 1000 <<< 1 ∧
      encodeLenWord p64 1000 % 2 = 0 ∧
      decodeLenWord (encodeLenWord p64 1000) = 1000) :=
  ⟨⟨by decide, by decide⟩, c10_len_shift_lossless p64 1000 (by decide) (by decide)⟩

end EmbedStr
